import Mathlib

/-!
Verification development for the MindTrack backend (src/backend.py).

The file shallowly embeds the data model and the operations of the backend:
the SQLite tables become Lean lists of records, calendar dates (ISO strings
in the code, always compared and stepped day-by-day via timedelta) become
integers (day indices; the ISO encoding is order-isomorphic and injective),
and Python exceptions become an explicit Except monad.

Python's json.loads is modelled on the JSON fragment the application ever
produces and the claims ever mention: null, true, false, integers, strings
without escape sequences, and flat arrays of those scalars.  Texts outside
this fragment are treated as undecodable.  Every concrete input used in a
theorem below stays inside the fragment, where the model agrees with
Python's parser exactly.
-/

deriving instance DecidableEq for Except

namespace MindTrack

/-- A decoded JSON scalar value (Python object produced by json.loads). -/
inductive PyScalar where
  | snull
  | sbool (b : Bool)
  | sint (n : Int)
  | sstr (s : String)
deriving DecidableEq

/-- A decoded JSON value: a scalar, or a flat array of scalars. -/
inductive PyVal where
  | scalar (v : PyScalar)
  | arr (elems : List PyScalar)
deriving DecidableEq

/-- The Python exception kinds that the embedded code paths can raise. -/
inductive PyErr where
  | jsonDecodeError
  | typeError
  | attributeError
deriving DecidableEq

/-- Representative exception message texts (used by the db_operation
substring checks, which look for database-connection phrases). -/
def pyErrMessage : PyErr → String
  | .jsonDecodeError => "Expecting value: line 1 column 1 (char 0)"
  | .typeError => "object of type 'int' has no len()"
  | .attributeError => "'int' object has no attribute 'capitalize'"

/-! ### A JSON decoder for the modelled fragment (Python json.loads) -/

/-- Skip JSON whitespace. -/
def skipWs : List Char → List Char
  | [] => []
  | c :: cs => if c = ' ' ∨ c = '\t' ∨ c = '\n' ∨ c = '\r' then skipWs cs else c :: cs

/-- Digits of a decimal literal folded to a natural number. -/
def digitsToNat (cs : List Char) : Nat :=
  cs.foldl (fun a c => a * 10 + (c.toNat - 48)) 0

/-- Parse one JSON scalar at the head of the input; returns the value and
the remaining characters. -/
def parseScalar (cs : List Char) : Option (PyScalar × List Char) :=
  match cs with
  | 'n' :: 'u' :: 'l' :: 'l' :: rest => some (.snull, rest)
  | 't' :: 'r' :: 'u' :: 'e' :: rest => some (.sbool true, rest)
  | 'f' :: 'a' :: 'l' :: 's' :: 'e' :: rest => some (.sbool false, rest)
  | '"' :: rest =>
    let content := rest.takeWhile (fun c => c ≠ '"')
    let remainder := rest.dropWhile (fun c => c ≠ '"')
    match remainder with
    | '"' :: r2 => some (.sstr (String.mk content), r2)
    | _ => none
  | '-' :: rest =>
    let ds := rest.takeWhile Char.isDigit
    if ds.isEmpty then none
    else some (.sint (-(digitsToNat ds : Int)), rest.dropWhile Char.isDigit)
  | c :: rest =>
    if c.isDigit then
      let ds := (c :: rest).takeWhile Char.isDigit
      some (.sint (digitsToNat ds : Int), (c :: rest).dropWhile Char.isDigit)
    else none
  | [] => none

/-- Parse the comma-separated scalar items of a JSON array, up to and
including the closing bracket.  The fuel argument bounds recursion and is
always called with more fuel than there are characters. -/
def parseItems : Nat → List Char → Option (List PyScalar × List Char)
  | 0, _ => none
  | fuel + 1, cs =>
    match parseScalar (skipWs cs) with
    | none => none
    | some (v, rest) =>
      match skipWs rest with
      | ',' :: rest2 =>
        match parseItems fuel rest2 with
        | some (vs, r) => some (v :: vs, r)
        | none => none
      | ']' :: rest2 => some ([v], rest2)
      | _ => none

/-- Parse one JSON value (scalar or flat array) at the head of the input. -/
def parseTop (cs0 : List Char) : Option (PyVal × List Char) :=
  let cs := skipWs cs0
  match cs with
  | '[' :: rest =>
    match skipWs rest with
    | ']' :: r2 => some (.arr [], r2)
    | rest1 =>
      match parseItems (rest1.length + 1) rest1 with
      | some (vs, r) => some (.arr vs, r)
      | none => none
  | _ =>
    match parseScalar cs with
    | some (v, rest) => some (.scalar v, rest)
    | none => none

/-- Model of Python json.loads on the fragment: some value on success,
none when the text is not decodable (json.JSONDecodeError). -/
def json_loads (s : String) : Option PyVal :=
  match parseTop s.data with
  | some (v, rest) => if (skipWs rest).isEmpty then some v else none
  | none => none

/-! ### Python dynamic operations used by calculate_stats -/

/-- Python len() on a decoded JSON value: arrays and strings have a
length, every other value raises TypeError. -/
def py_len : PyVal → Except PyErr Nat
  | .arr xs => .ok xs.length
  | .scalar (.sstr s) => .ok s.length
  | .scalar _ => .error .typeError

/-- Python iteration (for habit in habits): arrays yield their elements,
strings yield their characters as one-character strings, every other
value raises TypeError. -/
def py_iter : PyVal → Except PyErr (List PyScalar)
  | .arr xs => .ok xs
  | .scalar (.sstr s) => .ok (s.data.map (fun c => .sstr (String.mk [c])))
  | .scalar _ => .error .typeError

/-- Python str.capitalize(): first character upper-cased, all remaining
characters lower-cased. -/
def py_capitalize (s : String) : String :=
  match s.data with
  | [] => ""
  | c :: rest => String.mk (c.toUpper :: rest.map Char.toLower)

/-! ### The habit_logs table and the stats engine -/

/-- One row of the habit_logs table: log_date (a calendar day, modelled as
an integer day index) and the habits_json TEXT column (none models SQL
NULL).  log_date is UNIQUE in the schema. -/
structure Row where
  log_date : Int
  habits_json : Option String
deriving DecidableEq

/-- The WHERE clause of the stats query: habits_json != '[]'.  SQL NULL
compares unknown, so NULL rows are excluded as well. -/
def rowFetched (r : Row) : Bool :=
  match r.habits_json with
  | some s => decide (s ≠ "[]")
  | none => false

/-- The rows the stats query returns: the non-'[]' rows in log_date
descending order (ORDER BY log_date DESC; dates are unique). -/
def fetch (t : List Row) : List Row :=
  List.insertionSort (fun a b => b.log_date ≤ a.log_date) (t.filter rowFetched)

/-- Python dict update habit_counts[habit] = habit_counts.get(habit, 0) + 1
on an insertion-ordered association list: the first matching key is
incremented in place, a new key is appended. -/
def bump : List (PyScalar × Nat) → PyScalar → List (PyScalar × Nat)
  | [], k => [(k, 1)]
  | (j, c) :: rest, k =>
    if j = k then (j, c + 1) :: rest else (j, c) :: bump rest k

/-- The per-row loop body of calculate_stats folded over the fetched rows:
json.loads inside try (a decode error skips the row), then
total_habits_completed += len(habits) and the habit counting loop.
Carries the habit_counts dict and the running total. -/
def scan_rows : List Row → List (PyScalar × Nat) → Nat →
    Except PyErr (List (PyScalar × Nat) × Nat)
  | [], counts, tot => .ok (counts, tot)
  | r :: rest, counts, tot =>
    match r.habits_json with
    | none => .error .typeError
    | some s =>
      match json_loads s with
      | none => scan_rows rest counts tot
      | some v =>
        match py_len v with
        | .error e => .error e
        | .ok n =>
          match py_iter v with
          | .error e => .error e
          | .ok elems => scan_rows rest (elems.foldl bump counts) (tot + n)

/-- Python max(habit_counts, key=habit_counts.get) over a nonempty dict:
left fold keeping the current best, replaced only on a strictly greater
count, so the first maximal key in insertion order wins. -/
def maxFrom (p : PyScalar × Nat) : List (PyScalar × Nat) → PyScalar × Nat
  | [] => p
  | q :: rest => if q.2 > p.2 then maxFrom q rest else maxFrom p rest

/-- best_habit selection plus the final .capitalize() call: the sentinel
"None yet" when the dict is empty, otherwise the max key capitalized.
A non-string winning key would raise AttributeError at .capitalize(). -/
def best_habit_calc (counts : List (PyScalar × Nat)) : Except PyErr String :=
  match counts with
  | [] => .ok (py_capitalize "None yet")
  | p :: rest =>
    match (maxFrom p rest).1 with
    | .sstr s => .ok (py_capitalize s)
    | _ => .error .attributeError

/-- The logged_dates set accumulated in the scan loop (added before the
try block, so every fetched row's date is included). -/
def loggedDates (rows : List Row) : Finset Int :=
  (rows.map Row.log_date).toFinset

/-- The backward while loop of the streak computation, with explicit fuel:
counts consecutive days present in the set walking backward from d.  The
callers pass fuel larger than any possible run length, so the fuel never
binds. -/
def streak_walk (L : Finset Int) : Nat → Int → Nat
  | 0, _ => 0
  | fuel + 1, d => if d ∈ L then 1 + streak_walk L fuel (d - 1) else 0

/-- The streak branch structure of calculate_stats: walk from today when
today is logged, else walk from yesterday when yesterday is logged, else
zero. -/
def current_streak_calc (L : Finset Int) (today : Int) : Nat :=
  if today ∈ L then streak_walk L (L.card + 1) today
  else if (today - 1) ∈ L then streak_walk L (L.card + 1) (today - 1)
  else 0

/-- The streak emoji selection: default, then the three threshold
branches. -/
def streak_emoji_calc (n : Nat) : String :=
  if 1 ≤ n ∧ n ≤ 3 then "😊"
  else if 4 ≤ n ∧ n ≤ 7 then "🔥"
  else if 7 < n then "🏆"
  else "😔"

/-- The Stats dictionary calculate_stats returns. -/
structure Stats where
  total_days : Nat
  best_habit : String
  current_streak : Nat
  total_habits_completed : Nat
  streak_emoji : String
deriving DecidableEq

/-- calculate_stats from src/backend.py: fetch the non-'[]' rows in
descending date order, count them as total_days, scan them for per-habit
counts and total completions (decode errors skip a row), pick the best
habit, then compute the streak from the logged-dates set and the emoji
tier.  An uncaught Python exception is the error case. -/
def calculate_stats (t : List Row) (today : Int) : Except PyErr Stats :=
  let rows := fetch t
  match scan_rows rows [] 0 with
  | .error e => .error e
  | .ok (counts, tot) =>
    match best_habit_calc counts with
    | .error e => .error e
    | .ok best =>
      let cs := current_streak_calc (loggedDates rows) today
      .ok ⟨rows.length, best, cs, tot, streak_emoji_calc cs⟩

/-! ### The habits table and its endpoints -/

/-- One row of the habits table: id (AUTOINCREMENT primary key), name
(TEXT NOT NULL UNIQUE) and the is_deletable flag. -/
structure Habit where
  id : Nat
  name : String
  is_deletable : Bool
deriving DecidableEq

/-- The habits table: its rows in id order plus the next AUTOINCREMENT
id. -/
structure HabitsTable where
  rows : List Habit
  nextId : Nat
deriving DecidableEq

/-- The response of a habit-management endpoint: 200 with the full habit
list, 400 with a message, or 409 with a message. -/
inductive HabitResp where
  | ok (habits : List Habit)
  | badRequest (msg : String)
  | conflict (msg : String)
deriving DecidableEq

/-- add_habit from src/backend.py.  The request body's name field is an
optional string; Python's falsiness check rejects both a missing name and
the empty string with 400.  The INSERT uses OR IGNORE, so a UNIQUE-name
collision is silently ignored and the endpoint still answers 200 with the
(unchanged) list; the sqlite3.IntegrityError handler answering 409 is
unreachable. -/
def add_habit (tbl : HabitsTable) (nameReq : Option String) :
    HabitsTable × HabitResp :=
  match nameReq with
  | none => (tbl, .badRequest "Habit name is required")
  | some name =>
    if name = "" then (tbl, .badRequest "Habit name is required")
    else if tbl.rows.any (fun h => decide (h.name = name)) then
      (tbl, .ok tbl.rows)
    else
      let tbl' : HabitsTable :=
        ⟨tbl.rows ++ [⟨tbl.nextId, name, true⟩], tbl.nextId + 1⟩
      (tbl', .ok tbl'.rows)

/-- delete_habit from src/backend.py.  Python's falsiness check rejects a
missing id and the id 0 with 400.  The DELETE statement removes only rows
with the given id and is_deletable = 1, and the endpoint always answers
200 with the remaining list: a missing id and a non-deletable id both
leave the table unchanged and are not reported. -/
def delete_habit (tbl : HabitsTable) (idReq : Option Nat) :
    HabitsTable × HabitResp :=
  match idReq with
  | none => (tbl, .badRequest "Habit ID is required")
  | some i =>
    if i = 0 then (tbl, .badRequest "Habit ID is required")
    else
      let rows' := tbl.rows.filter
        (fun h => !(decide (h.id = i) && h.is_deletable))
      (⟨rows', tbl.nextId⟩, .ok rows')

/-! ### get_today_logs and the db_operation wrapper -/

/-- get_today_logs from src/backend.py: select today's row (log_date is
UNIQUE, so at most one row matches) and json.loads its payload with no
try block — a NULL payload raises TypeError inside json.loads and an
undecodable payload raises json.JSONDecodeError; with no row, answer with
the empty list. -/
def get_today_logs (tbl : List Row) (today : Int) : Except PyErr PyVal :=
  match tbl.find? (fun r => decide (r.log_date = today)) with
  | some r =>
    match r.habits_json with
    | none => .error .typeError
    | some s =>
      match json_loads s with
      | none => .error .jsonDecodeError
      | some v => .ok v
  | none => .ok (.arr [])

/-- Does the character list start with the pattern? -/
def startsWithChars : List Char → List Char → Bool
  | _, [] => true
  | [], _ :: _ => false
  | a :: as, b :: bs => decide (a = b) && startsWithChars as bs

/-- Does the character list contain the pattern as a contiguous run? -/
def containsChars : List Char → List Char → Bool
  | [], pat => pat.isEmpty
  | l@(_ :: rest), pat => startsWithChars l pat || containsChars rest pat

/-- The outcome db_operation hands to the client: 200 with a value, the
database-connection 500, or the generic internal 500. -/
inductive HttpResp (α : Type) where
  | success (a : α)
  | dbError
  | internalError
deriving DecidableEq

/-- db_operation from src/backend.py: run the operation; on an exception,
answer the database 500 when the message mentions "unable to open" or
"connection failed", and the generic internal 500 otherwise. -/
def db_operation {α : Type} (r : Except PyErr α) : HttpResp α :=
  match r with
  | .ok a => .success a
  | .error e =>
    let msg := (pyErrMessage e).data
    if containsChars msg ("unable to open").data ||
        containsChars msg ("connection failed").data
    then .dbError else .internalError

/-! ### Specification-side definitions used to state the claims -/

/-- Is the decoded scalar a string? -/
def isStrScalar : PyScalar → Bool
  | .sstr _ => true
  | _ => false

/-- A row is scan-safe when the calculate_stats loop body cannot raise on
it: its payload either fails to decode (the row is skipped) or decodes to
an array of strings. -/
def scanSafeB (r : Row) : Bool :=
  match r.habits_json with
  | none => false
  | some s =>
    match json_loads s with
    | none => true
    | some (.arr xs) => xs.all isStrScalar
    | some (.scalar _) => false

/-- A row is a well-formed non-empty day record: its payload decodes to a
nonempty array of strings. -/
def wfNonEmptyB (r : Row) : Bool :=
  match r.habits_json with
  | none => false
  | some s =>
    match json_loads s with
    | some (.arr xs) => !xs.isEmpty && xs.all isStrScalar
    | _ => false

/-- A row is canonically encoded: absent payload, the canonical empty
list serialization "[]" (what json.dumps([]) writes), or a well-formed
non-empty record. -/
def canonicalRow (r : Row) : Prop :=
  r.habits_json = none ∨ r.habits_json = some "[]" ∨ wfNonEmptyB r = true

/-- The set of dates carrying a well-formed non-empty record: the
logged-dates set L of the specification. -/
def specLogged (t : List Row) : Finset Int :=
  ((t.filter wfNonEmptyB).map Row.log_date).toFinset

/-- The habit items one row contributes to the counting loop (empty when
the payload is skipped or not iterable). -/
def elemsContrib (r : Row) : List PyScalar :=
  match r.habits_json with
  | none => []
  | some s =>
    match json_loads s with
    | none => []
    | some v =>
      match py_iter v with
      | .ok es => es
      | .error _ => []

/-- The length one row contributes to total_habits_completed (zero when
the payload is skipped or has no length). -/
def lenContrib (r : Row) : Nat :=
  match r.habits_json with
  | none => 0
  | some s =>
    match json_loads s with
    | none => 0
    | some v =>
      match py_len v with
      | .ok n => n
      | .error _ => 0

/-- The full sequence of habit items a row list feeds to the counting
loop, in scan order. -/
def rowsSeq (rows : List Row) : List PyScalar :=
  (rows.map elemsContrib).flatten

/-- The scan sequence of calculate_stats on a stored table: the habit
items of the fetched rows in descending date order. -/
def habitSeq (t : List Row) : List PyScalar :=
  rowsSeq (fetch t)

/-- The index of the first occurrence of an element in a list (the length
when absent). -/
def firstIdx {α : Type} [DecidableEq α] (l : List α) (a : α) : Nat :=
  l.findIdx (fun x => decide (x = a))

/-- The keys of the habit_counts association list, in insertion order. -/
def keysOf (counts : List (PyScalar × Nat)) : List PyScalar :=
  counts.map Prod.fst

/-- The count stored for a key in the habit_counts association list: the
first matching entry's count, zero when absent. -/
def countOf : List (PyScalar × Nat) → PyScalar → Nat
  | [], _ => 0
  | (j, c) :: rest, k => if j = k then c else countOf rest k

/-! ## Helper lemmas -/

theorem toFinset_perm {l₁ l₂ : List Int} (h : l₁.Perm l₂) :
    l₁.toFinset = l₂.toFinset :=
  Finset.ext fun a => by simp [List.mem_toFinset, h.mem_iff]

theorem orderedInsert_split {α : Type} (r : α → α → Prop) [DecidableRel r]
    (a : α) (l : List α) :
    ∃ l1 l2, List.orderedInsert r a l = l1 ++ a :: l2 ∧ l1 ++ l2 = l := by
  refine ⟨l.takeWhile fun b => ¬r a b, l.dropWhile fun b => ¬r a b, ?_, ?_⟩
  · simpa using List.orderedInsert_eq_take_drop r a l
  · exact List.takeWhile_append_dropWhile (fun b => decide ¬r a b) l

theorem scan_rows_ok_char :
    ∀ (rows : List Row) (acc : List (PyScalar × Nat)) (tot : Nat)
      (c : List (PyScalar × Nat)) (tt : Nat),
      scan_rows rows acc tot = .ok (c, tt) →
      c = (rowsSeq rows).foldl bump acc ∧
      tt = tot + (rows.map lenContrib).sum := by
  intro rows
  induction rows with
  | nil =>
    intro acc tot c tt h
    simp only [scan_rows, Except.ok.injEq, Prod.mk.injEq] at h
    simp [rowsSeq, h.1.symm, h.2.symm]
  | cons r rest ih =>
    intro acc tot c tt h
    have hseq : rowsSeq (r :: rest) = elemsContrib r ++ rowsSeq rest := by
      simp [rowsSeq]
    rcases hj : r.habits_json with _ | s
    · simp [scan_rows, hj] at h
    · rcases hl : json_loads s with _ | v
      · simp only [scan_rows, hj, hl] at h
        have := ih acc tot c tt h
        have hec : elemsContrib r = [] := by simp [elemsContrib, hj, hl]
        have hlc : lenContrib r = 0 := by simp [lenContrib, hj, hl]
        simpa [hseq, hec, hlc] using this
      · rcases hn : py_len v with e | n
        · simp [scan_rows, hj, hl, hn] at h
        · rcases hi : py_iter v with e | elems
          · simp [scan_rows, hj, hl, hn, hi] at h
          · simp only [scan_rows, hj, hl, hn, hi] at h
            have := ih (elems.foldl bump acc) (tot + n) c tt h
            have hec : elemsContrib r = elems := by simp [elemsContrib, hj, hl, hi]
            have hlc : lenContrib r = n := by simp [lenContrib, hj, hl, hn]
            constructor
            · rw [this.1, hseq, hec, List.foldl_append]
            · rw [this.2]
              have : lenContrib r = n := hlc
              simp [this]
              omega

theorem scan_rows_skip :
    ∀ (l1 l2 : List Row) (r : Row) (s : String)
      (acc : List (PyScalar × Nat)) (tot : Nat),
      r.habits_json = some s → json_loads s = none →
      scan_rows (l1 ++ r :: l2) acc tot = scan_rows (l1 ++ l2) acc tot := by
  intro l1
  induction l1 with
  | nil =>
    intro l2 r s acc tot hj hl
    simp [scan_rows, hj, hl]
  | cons a l1' ih =>
    intro l2 r s acc tot hj hl
    rcases hja : a.habits_json with _ | sa
    · simp [scan_rows, hja]
    · rcases hla : json_loads sa with _ | v
      · simpa [scan_rows, hja, hla] using ih l2 r s acc tot hj hl
      · rcases hn : py_len v with e | n
        · simp [scan_rows, hja, hla, hn]
        · rcases hi : py_iter v with e | elems
          · simp [scan_rows, hja, hla, hn, hi]
          · simpa [scan_rows, hja, hla, hn, hi] using
              ih l2 r s _ _ hj hl

theorem scan_rows_isOk :
    ∀ (rows : List Row) (acc : List (PyScalar × Nat)) (tot : Nat),
      (∀ r ∈ rows, scanSafeB r = true) →
      ∃ c tt, scan_rows rows acc tot = .ok (c, tt) := by
  intro rows
  induction rows with
  | nil => intro acc tot _; exact ⟨acc, tot, rfl⟩
  | cons r rest ih =>
    intro acc tot hsafe
    have hr := hsafe r (List.mem_cons_self r rest)
    have hrest : ∀ x ∈ rest, scanSafeB x = true := fun x hx =>
      hsafe x (List.mem_cons_of_mem r hx)
    rcases hj : r.habits_json with _ | s
    · simp [scanSafeB, hj] at hr
    · rcases hl : json_loads s with _ | v
      · simpa [scan_rows, hj, hl] using ih acc tot hrest
      · rcases v with w | xs
        · simp [scanSafeB, hj, hl] at hr
        · simpa [scan_rows, hj, hl, py_len, py_iter] using
            ih (xs.foldl bump acc) (tot + xs.length) hrest

theorem streak_walk_run (L : Finset Int) :
    ∀ (N : Nat) (d : Int) (fuel : Nat), N < fuel →
      (∀ i : Nat, i < N → d - (i : Int) ∈ L) → d - (N : Int) ∉ L →
      streak_walk L fuel d = N := by
  intro N
  induction N with
  | zero =>
    intro d fuel hfuel _ hgap
    rcases fuel with _ | f
    · omega
    · simp only [streak_walk]
      have : d ∉ L := by simpa using hgap
      simp [this]
  | succ n ih =>
    intro d fuel hfuel hrun hgap
    rcases fuel with _ | f
    · omega
    · have hd : d ∈ L := by simpa using hrun 0 (Nat.succ_pos n)
      simp only [streak_walk, hd, if_pos]
      have h1 : ∀ i : Nat, i < n → d - 1 - (i : Int) ∈ L := by
        intro i hi
        have := hrun (i + 1) (by omega)
        have harith : d - ((i : Int) + 1) = d - 1 - (i : Int) := by ring
        rwa [Nat.cast_add, Nat.cast_one, harith] at this
      have h2 : d - 1 - (n : Int) ∉ L := by
        have harith : d - ((n : Int) + 1) = d - 1 - (n : Int) := by ring
        rwa [Nat.cast_add, Nat.cast_one, harith] at hgap
      rw [ih (d - 1) f (by omega) h1 h2]
      omega

theorem run_le_card (L : Finset Int) (d : Int) (N : Nat)
    (h : ∀ i : Nat, i < N → d - (i : Int) ∈ L) : N ≤ L.card := by
  have hinj : Function.Injective (fun i : Nat => d - (i : Int)) := by
    intro i j hij
    simp only at hij
    omega
  have hsub : (Finset.range N).image (fun i : Nat => d - (i : Int)) ⊆ L := by
    intro x hx
    rcases Finset.mem_image.mp hx with ⟨i, hi, rfl⟩
    exact h i (Finset.mem_range.mp hi)
  calc N = ((Finset.range N).image (fun i : Nat => d - (i : Int))).card := by
            rw [Finset.card_image_of_injective _ hinj, Finset.card_range]
    _ ≤ L.card := Finset.card_le_card hsub

theorem mem_fetch {t : List Row} {r : Row} :
    r ∈ fetch t ↔ r ∈ t ∧ rowFetched r = true := by
  rw [fetch, List.mem_insertionSort, List.mem_filter]

theorem calculate_stats_shape {t : List Row} {today : Int} {st : Stats}
    (h : calculate_stats t today = .ok st) :
    ∃ counts tot best,
      scan_rows (fetch t) [] 0 = .ok (counts, tot) ∧
      best_habit_calc counts = .ok best ∧
      st = ⟨(fetch t).length, best,
            current_streak_calc (loggedDates (fetch t)) today, tot,
            streak_emoji_calc
              (current_streak_calc (loggedDates (fetch t)) today)⟩ := by
  rcases hscan : scan_rows (fetch t) [] 0 with e | ⟨counts, tot⟩
  · simp [calculate_stats, hscan] at h
  · rcases hbest : best_habit_calc counts with e | best
    · simp [calculate_stats, hscan, hbest] at h
    · refine ⟨counts, tot, best, rfl, hbest, ?_⟩
      simp only [calculate_stats, hscan, hbest, Except.ok.injEq] at h
      exact h.symm

theorem keysOf_bump (counts : List (PyScalar × Nat)) (k : PyScalar) :
    keysOf (bump counts k) =
      if k ∈ keysOf counts then keysOf counts else keysOf counts ++ [k] := by
  induction counts with
  | nil => simp [bump, keysOf]
  | cons p rest ih =>
    rcases p with ⟨j, c⟩
    by_cases hjk : j = k
    · subst hjk
      simp [bump, keysOf]
    · simp only [bump, if_neg hjk, keysOf, List.map_cons]
      by_cases hk : k ∈ keysOf rest
      · simp [keysOf] at hk ih ⊢
        simp [hk, ih, Ne.symm hjk]
      · simp [keysOf] at hk ih ⊢
        simp [hk, ih, Ne.symm hjk]

theorem mem_keysOf_foldl_bump {elems : List PyScalar}
    {acc : List (PyScalar × Nat)} {k : PyScalar}
    (h : k ∈ keysOf (elems.foldl bump acc)) :
    k ∈ keysOf acc ∨ k ∈ elems := by
  induction elems generalizing acc with
  | nil => exact Or.inl h
  | cons e rest ih =>
    rcases ih (show k ∈ keysOf (List.foldl bump (bump acc e) rest) from h) with hin | hin
    · rw [keysOf_bump] at hin
      by_cases he : e ∈ keysOf acc
      · rw [if_pos he] at hin
        exact Or.inl hin
      · rw [if_neg he] at hin
        rcases List.mem_append.mp hin with h1 | h1
        · exact Or.inl h1
        · simp at h1
          exact Or.inr (h1 ▸ List.mem_cons_self e rest)
    · exact Or.inr (List.mem_cons_of_mem e hin)

theorem maxFrom_mem (p : PyScalar × Nat) (l : List (PyScalar × Nat)) :
    maxFrom p l ∈ p :: l := by
  induction l generalizing p with
  | nil => simp [maxFrom]
  | cons q rest ih =>
    simp only [maxFrom]
    by_cases hq : q.2 > p.2
    · rw [if_pos hq]
      rcases List.mem_cons.mp (ih q) with h | h
      · simp [h]
      · simp [List.mem_cons_of_mem _ (List.mem_cons_of_mem _ h)]
    · rw [if_neg hq]
      rcases List.mem_cons.mp (ih p) with h | h
      · simp [h]
      · simp [List.mem_cons_of_mem _ (List.mem_cons_of_mem _ h)]

theorem best_habit_calc_isOk {counts : List (PyScalar × Nat)}
    (h : ∀ k ∈ keysOf counts, isStrScalar k = true) :
    ∃ b, best_habit_calc counts = .ok b := by
  rcases counts with _ | ⟨p, rest⟩
  · exact ⟨py_capitalize "None yet", rfl⟩
  · have hm : (maxFrom p rest).1 ∈ keysOf (p :: rest) :=
      List.mem_map_of_mem Prod.fst (maxFrom_mem p rest)
    have := h _ hm
    rcases hk : (maxFrom p rest).1 with _ | b | n | s
    all_goals rw [hk] at this
    all_goals simp [isStrScalar] at this
    exact ⟨py_capitalize s, by simp [best_habit_calc, hk]⟩

theorem rowsSeq_strings {rows : List Row}
    (h : ∀ r ∈ rows, scanSafeB r = true) :
    ∀ e ∈ rowsSeq rows, isStrScalar e = true := by
  intro e he
  rw [rowsSeq, List.mem_flatten] at he
  rcases he with ⟨l, hl, hel⟩
  rcases List.mem_map.mp hl with ⟨r, hr, rfl⟩
  have hsafe := h r hr
  rcases hj : r.habits_json with _ | s
  · have hec : elemsContrib r = [] := by simp [elemsContrib, hj]
    rw [hec] at hel
    simp at hel
  · rcases hjl : json_loads s with _ | v
    · have hec : elemsContrib r = [] := by simp [elemsContrib, hj, hjl]
      rw [hec] at hel
      simp at hel
    · rcases v with w | xs
      · have hfalse : scanSafeB r = false := by simp [scanSafeB, hj, hjl]
        rw [hfalse] at hsafe
        cases hsafe
      · have hsf : xs.all isStrScalar = true := by
          have heq : scanSafeB r = xs.all isStrScalar := by
            simp [scanSafeB, hj, hjl]
          rw [heq] at hsafe
          exact hsafe
        have hec : elemsContrib r = xs := by simp [elemsContrib, hj, hjl, py_iter]
        rw [hec] at hel
        exact List.all_eq_true.mp hsf e hel

theorem calculate_stats_isOk {t : List Row} (today : Int)
    (hsafe : ∀ r ∈ t, rowFetched r = true → scanSafeB r = true) :
    ∃ st, calculate_stats t today = .ok st := by
  have hsafe' : ∀ r ∈ fetch t, scanSafeB r = true := by
    intro r hr
    rcases mem_fetch.mp hr with ⟨hmem, hf⟩
    exact hsafe r hmem hf
  rcases scan_rows_isOk (fetch t) [] 0 hsafe' with ⟨counts, tot, hscan⟩
  have hchar := scan_rows_ok_char _ _ _ _ _ hscan
  have hkeys : ∀ k ∈ keysOf counts, isStrScalar k = true := by
    intro k hk
    rw [hchar.1] at hk
    rcases mem_keysOf_foldl_bump hk with hin | hin
    · simp [keysOf] at hin
    · exact rowsSeq_strings hsafe' k hin
  rcases best_habit_calc_isOk hkeys with ⟨b, hbest⟩
  refine ⟨⟨(fetch t).length, b,
    current_streak_calc (loggedDates (fetch t)) today, tot,
    streak_emoji_calc (current_streak_calc (loggedDates (fetch t)) today)⟩, ?_⟩
  simp [calculate_stats, hscan, hbest]

/-! ## Claims -/

/-- C3 counterexample: the claim says calculate_stats never raises for
any stored history, but a stored payload "5" is valid JSON that decodes
to a number, and len(5) raises an uncaught TypeError which escapes
calculate_stats. -/
theorem c3_counterexample :
    calculate_stats [⟨0, some "5"⟩] 0 = .error .typeError := by decide

/-- C3 amended: calculate_stats completes with a Stats result for every
history in which each stored row either does not pass the habits_json !=
'[]' filter, or has a payload that fails to decode (the record is
skipped), or has a payload decoding to a list of strings.  A payload
decoding to a sizeless value (number, boolean, null) raises an uncaught
TypeError instead. -/
theorem c3_amended (t : List Row) (today : Int)
    (hsafe : ∀ r ∈ t, rowFetched r = true → scanSafeB r = true) :
    ∃ st, calculate_stats t today = .ok st :=
  calculate_stats_isOk today hsafe

/-- C3 amended witness at a concrete history containing a well-formed
row, a corrupt row, an empty-list row and a NULL row. -/
theorem c3_witness :
    ∃ st, calculate_stats
      [⟨0, some "[\"a\"]"⟩, ⟨1, some "not json"⟩, ⟨2, some "[]"⟩, ⟨3, none⟩]
      3 = .ok st := by
  apply c3_amended
  intro r hr
  fin_cases hr <;> decide

/-- C4: a record whose payload is the serialized empty list "[]"
(json.dumps of the empty habit set) is statistically invisible: the
stats output on a history containing it, at any position, equals the
output on the history with the record removed, for every surrounding
history and every value of today. -/
theorem c4_empty_record_invariant (t1 t2 : List Row) (d : Int) (today : Int) :
    calculate_stats (t1 ++ ⟨d, some "[]"⟩ :: t2) today =
      calculate_stats (t1 ++ t2) today := by
  have hfilter : (t1 ++ (⟨d, some "[]"⟩ : Row) :: t2).filter rowFetched =
      (t1 ++ t2).filter rowFetched := by
    simp [List.filter_append, List.filter_cons, rowFetched]
  simp [calculate_stats, fetch, hfilter]

/-- C7: the streak emoji is a pure function of current_streak with the
fixed thresholds 0, 1-3, 4-7, over 7; the Stats result always carries
streak_emoji_calc of its own current_streak. -/
theorem c7_streak_tier (t : List Row) (today : Int) (st : Stats)
    (h : calculate_stats t today = .ok st) :
    st.streak_emoji = streak_emoji_calc st.current_streak ∧
    streak_emoji_calc 0 = "😔" ∧
    (∀ n : Nat, 1 ≤ n → n ≤ 3 → streak_emoji_calc n = "😊") ∧
    (∀ n : Nat, 4 ≤ n → n ≤ 7 → streak_emoji_calc n = "🔥") ∧
    (∀ n : Nat, 7 < n → streak_emoji_calc n = "🏆") := by
  refine ⟨?_, by decide, ?_, ?_, ?_⟩
  · rcases calculate_stats_shape h with ⟨counts, tot, best, _, _, hst⟩
    rw [hst]
  · intro n h1 h3
    have : 1 ≤ n ∧ n ≤ 3 := ⟨h1, h3⟩
    simp [streak_emoji_calc, this]
  · intro n h4 h7
    have hne : ¬(1 ≤ n ∧ n ≤ 3) := by omega
    have : 4 ≤ n ∧ n ≤ 7 := ⟨h4, h7⟩
    simp [streak_emoji_calc, hne, this]
  · intro n h7
    have h1 : ¬(1 ≤ n ∧ n ≤ 3) := by omega
    have h2 : ¬(4 ≤ n ∧ n ≤ 7) := by omega
    simp [streak_emoji_calc, h1, h2, h7]

/-- C7 witness: the tier function applied across the thresholds, with
the connection to a concrete Stats result. -/
theorem c7_witness :
    streak_emoji_calc 0 = "😔" ∧ streak_emoji_calc 2 = "😊" ∧
    streak_emoji_calc 5 = "🔥" ∧ streak_emoji_calc 9 = "🏆" ∧
    (⟨0, "None yet", 0, 0, "😔"⟩ : Stats).streak_emoji =
      streak_emoji_calc (⟨0, "None yet", 0, 0, "😔"⟩ : Stats).current_streak := by
  have h := c7_streak_tier [] 0 ⟨0, "None yet", 0, 0, "😔"⟩ (by decide)
  exact ⟨h.2.1, h.2.2.1 2 (by decide) (by decide),
    h.2.2.2.1 5 (by decide) (by decide), h.2.2.2.2 9 (by decide), h.1⟩

/-- C8: the claim says a duplicate habit name fails with a DuplicateName
rejection; in the code INSERT OR IGNORE silently suppresses the UNIQUE
violation, so adding an existing name answers 200 with the unchanged
list and the 409 IntegrityError handler is dead code.  This evaluates
the model at the failing input. -/
theorem c8_add_habit_duplicate_silent :
    add_habit ⟨[⟨1, "water", true⟩], 2⟩ (some "water") =
      (⟨[⟨1, "water", true⟩], 2⟩, .ok [⟨1, "water", true⟩]) ∧
    (add_habit ⟨[⟨1, "water", true⟩], 2⟩ (some "water")).2 ≠
      .conflict "This habit already exists" := by decide

/-- C9 counterexample: deleting a non-deletable habit does not fail with
a NotDeletable rejection — it answers 200 with the unchanged list, and
the response is identical to deleting a nonexistent id, so the two
failure modes are not distinguishable to the caller. -/
theorem c9_counterexample :
    delete_habit ⟨[⟨1, "Drink water", false⟩], 2⟩ (some 1) =
      (⟨[⟨1, "Drink water", false⟩], 2⟩, .ok [⟨1, "Drink water", false⟩]) ∧
    delete_habit ⟨[⟨1, "Drink water", false⟩], 2⟩ (some 1) =
      delete_habit ⟨[⟨1, "Drink water", false⟩], 2⟩ (some 99) := by decide

/-- C9 amended: delete-habit removes exactly the definitions whose id
matches and are deletable; a missing id and a non-deletable id both
leave the store unchanged but are answered with the same success
response carrying the current list, not with distinguishable NotFound /
NotDeletable rejections. -/
theorem c9_amended (tbl : HabitsTable) (i : Nat) (hi : i ≠ 0) :
    (∀ h_ ∈ tbl.rows, h_.id = i → h_.is_deletable = true →
      h_ ∉ (delete_habit tbl (some i)).1.rows) ∧
    (∀ h_ ∈ tbl.rows, (h_.id ≠ i ∨ h_.is_deletable = false) →
      h_ ∈ (delete_habit tbl (some i)).1.rows) ∧
    (delete_habit tbl (some i)).2 = .ok (delete_habit tbl (some i)).1.rows ∧
    ((∀ h_ ∈ tbl.rows, ¬(h_.id = i ∧ h_.is_deletable = true)) →
      delete_habit tbl (some i) = (tbl, .ok tbl.rows)) := by
  simp only [delete_habit, if_neg hi]
  refine ⟨?_, ?_, by trivial, ?_⟩
  · intro h_ hmem hid hdel
    simp [List.mem_filter, hid, hdel]
  · intro h_ hmem hcond
    simp only [List.mem_filter]
    refine ⟨hmem, ?_⟩
    rcases hcond with hid | hdel
    · simp [hid]
    · simp [hdel]
  · intro hnone
    have heq : tbl.rows.filter (fun h_ => !(decide (h_.id = i) && h_.is_deletable)) =
        tbl.rows := by
      apply List.filter_eq_self.mpr
      intro h_ hmem
      have := hnone h_ hmem
      by_cases hid : h_.id = i
      · rcases hdel : h_.is_deletable with _ | _
        · simp [hid, hdel]
        · exact absurd ⟨hid, hdel⟩ this
      · simp [hid]
    rw [heq]

/-- C9 amended witness: a store with a non-deletable and a deletable
habit; deleting id 2 removes only the deletable one and answers with the
remaining list. -/
theorem c9_witness :
    (⟨2, "B", true⟩ : Habit) ∉
      (delete_habit ⟨[⟨1, "A", false⟩, ⟨2, "B", true⟩], 3⟩ (some 2)).1.rows ∧
    (⟨1, "A", false⟩ : Habit) ∈
      (delete_habit ⟨[⟨1, "A", false⟩, ⟨2, "B", true⟩], 3⟩ (some 2)).1.rows := by
  have h := c9_amended ⟨[⟨1, "A", false⟩, ⟨2, "B", true⟩], 3⟩ 2 (by decide)
  exact ⟨h.1 ⟨2, "B", true⟩ (by decide) rfl rfl,
    h.2.1 ⟨1, "A", false⟩ (by decide) (Or.inl (by decide))⟩

/-- C10: when today's row exists but its payload is NULL or undecodable,
get_today_logs raises (TypeError or json.JSONDecodeError) instead of
skipping the record or answering the empty list, and db_operation turns
that into the generic internal 500 — the corrupt-record tolerance of
calculate_stats does not extend to this read path. -/
theorem c10_get_today_logs_raises (tbl : List Row) (today : Int) (r : Row)
    (hfind : tbl.find? (fun x => decide (x.log_date = today)) = some r)
    (hbad : r.habits_json = none ∨
      ∃ s, r.habits_json = some s ∧ json_loads s = none) :
    db_operation (get_today_logs tbl today) = .internalError ∧
    ∀ v, get_today_logs tbl today ≠ .ok v := by
  rcases hbad with hnone | ⟨s, hsome, hdec⟩
  · have hres : get_today_logs tbl today = .error .typeError := by
      simp [get_today_logs, hfind, hnone]
    rw [hres]
    exact ⟨by decide, fun v h => by cases h⟩
  · have hres : get_today_logs tbl today = .error .jsonDecodeError := by
      simp [get_today_logs, hfind, hsome, hdec]
    rw [hres]
    exact ⟨by decide, fun v h => by cases h⟩

/-- C10 witness: a history whose only row is today's and carries an
unparsable payload; the endpoint answers the generic internal 500. -/
theorem c10_witness :
    db_operation (get_today_logs [⟨7, some "corrupt"⟩] 7) = .internalError := by
  exact (c10_get_today_logs_raises [⟨7, some "corrupt"⟩] 7 ⟨7, some "corrupt"⟩
    (by decide) (Or.inr ⟨"corrupt", rfl, by decide⟩)).1

/-- C1 counterexample: a well-formed record for day 10 plus an
undecodable record for day 11; with today = 11 the claim predicts
total_days_logged = 1 and current_streak = 1 (the corrupt day treated as
a gap), but the code counts the corrupt row in total_days and adds its
date to logged_dates before the try block, yielding 2 and 2. -/
theorem c1_counterexample :
    calculate_stats [⟨10, some "[\"a\"]"⟩, ⟨11, some "not json"⟩] 11 =
      .ok ⟨2, "A", 2, 1, "😊"⟩ := by decide

/-- C1 amended: a record whose payload is undecodable contributes
nothing to the per-habit counters, the best habit, or
total_habits_completed (removing it leaves them unchanged), but it does
count toward total_days and its date does participate in streak
contiguity (the streak is computed over the logged set with its date
inserted). -/
theorem c1_amended (t : List Row) (d : Int) (s : String) (today : Int)
    (hmal : json_loads s = none) (hne : s ≠ "[]") (st : Stats)
    (h : calculate_stats (⟨d, some s⟩ :: t) today = .ok st) :
    ∃ st0, calculate_stats t today = .ok st0 ∧
      st.total_days = st0.total_days + 1 ∧
      st.total_habits_completed = st0.total_habits_completed ∧
      st.best_habit = st0.best_habit ∧
      st.current_streak =
        current_streak_calc (insert d (loggedDates (fetch t))) today ∧
      st.streak_emoji = streak_emoji_calc st.current_streak := by
  have hrf : rowFetched (⟨d, some s⟩ : Row) = true := by
    simp [rowFetched, hne]
  have hfetch : fetch ((⟨d, some s⟩ : Row) :: t) =
      List.orderedInsert (fun a b => b.log_date ≤ a.log_date)
        ⟨d, some s⟩ (fetch t) := by
    simp [fetch, List.filter_cons, hrf, List.insertionSort]
  obtain ⟨l1, l2, hsplit, hjoin⟩ :=
    orderedInsert_split (fun a b : Row => b.log_date ≤ a.log_date)
      ⟨d, some s⟩ (fetch t)
  rcases calculate_stats_shape h with ⟨counts, tot, best, hscan, hbest, hst⟩
  rw [hfetch, hsplit] at hscan
  rw [scan_rows_skip l1 l2 ⟨d, some s⟩ s [] 0 rfl hmal, hjoin] at hscan
  refine ⟨⟨(fetch t).length, best,
    current_streak_calc (loggedDates (fetch t)) today, tot,
    streak_emoji_calc (current_streak_calc (loggedDates (fetch t)) today)⟩,
    by simp [calculate_stats, hscan, hbest], ?_, ?_, ?_, ?_, ?_⟩
  · rw [hst, hfetch, hsplit]
    have : (l1 ++ (⟨d, some s⟩ : Row) :: l2).length = (l1 ++ l2).length + 1 := by
      simp
      omega
    rw [this, hjoin]
  · rw [hst]
  · rw [hst]
  · rw [hst, hfetch, hsplit]
    have hlog : loggedDates (l1 ++ (⟨d, some s⟩ : Row) :: l2) =
        insert d (loggedDates (l1 ++ l2)) := by
      simp only [loggedDates, List.map_append, List.map_cons,
        List.toFinset_append, List.toFinset_cons]
      exact Finset.union_insert _ _ _
    rw [hlog, hjoin]
  · rw [hst]

/-- C1 amended witness: the concrete corrupt history of the
counterexample, related to the same history without the corrupt row. -/
theorem c1_witness :
    ∃ st0, calculate_stats [⟨10, some "[\"a\"]"⟩] 11 = .ok st0 ∧
      (2 : Nat) = st0.total_days + 1 ∧
      (1 : Nat) = st0.total_habits_completed ∧
      "A" = st0.best_habit ∧
      (2 : Nat) =
        current_streak_calc
          (insert 11 (loggedDates (fetch [⟨10, some "[\"a\"]"⟩]))) 11 ∧
      "😊" = streak_emoji_calc 2 := by
  have h := c1_amended [⟨10, some "[\"a\"]"⟩] 11 "not json" 11
    (by decide) (by decide) ⟨2, "A", 2, 1, "😊"⟩ (by decide)
  exact h

/-- C6 counterexample: the claim says total_habits_completed sums the
sizes of the day's habit sets as sets of distinct names; a stored
payload with a duplicated name gives list length 2 (what the code adds)
while the distinct-name set has size 1. -/
theorem c6_counterexample :
    calculate_stats [⟨0, some "[\"a\",\"a\"]"⟩] 0 = .ok ⟨1, "A", 1, 2, "😊"⟩ ∧
    (["a", "a"] : List String).dedup.length = 1 := by decide

/-- C6 amended: total_habits_completed equals the sum over all fetched
rows of the decoded payload's length — the raw list length, counting
duplicate names, zero for a skipped (undecodable) payload.  It is a Nat,
hence trivially non-negative. -/
theorem c6_amended (t : List Row) (today : Int) (st : Stats)
    (h : calculate_stats t today = .ok st) :
    st.total_habits_completed = ((t.filter rowFetched).map lenContrib).sum := by
  rcases calculate_stats_shape h with ⟨counts, tot, best, hscan, _, hst⟩
  have hchar := scan_rows_ok_char _ _ _ _ _ hscan
  have hperm : (fetch t).Perm (t.filter rowFetched) :=
    List.perm_insertionSort _ _
  have hsum : ((fetch t).map lenContrib).sum =
      ((t.filter rowFetched).map lenContrib).sum :=
    (hperm.map lenContrib).sum_eq
  rw [hst]
  simp only [hchar.2, Nat.zero_add]
  exact hsum

/-- A canonically encoded fetched row is scan-safe. -/
theorem canonical_safe {r : Row} (hc : canonicalRow r)
    (hf : rowFetched r = true) : scanSafeB r = true := by
  rcases hc with h0 | h0 | h0
  · simp [rowFetched, h0] at hf
  · simp [rowFetched, h0] at hf
  · rcases hj : r.habits_json with _ | s
    · simp [wfNonEmptyB, hj] at h0
    · rcases hl : json_loads s with _ | v
      · simp [wfNonEmptyB, hj, hl] at h0
      · rcases v with w | xs
        · simp [wfNonEmptyB, hj, hl] at h0
        · simp only [wfNonEmptyB, hj, hl, Bool.and_eq_true] at h0
          simp only [scanSafeB, hj, hl]
          exact h0.2

/-- Under canonical encoding the set of dates the code walks for the
streak coincides with the specification's logged-dates set L. -/
theorem loggedDates_fetch_eq_specLogged (t : List Row)
    (hcanon : ∀ r ∈ t, canonicalRow r) :
    loggedDates (fetch t) = specLogged t := by
  have hperm : (fetch t).Perm (t.filter rowFetched) :=
    List.perm_insertionSort _ _
  have h1 : loggedDates (fetch t) = loggedDates (t.filter rowFetched) :=
    toFinset_perm (hperm.map Row.log_date)
  rw [h1]
  have hjl : json_loads "[]" = some (.arr []) := by decide
  have hfe : t.filter rowFetched = t.filter wfNonEmptyB := by
    apply List.filter_congr
    intro r hr
    rcases hcanon r hr with h0 | h0 | h0
    · simp [rowFetched, wfNonEmptyB, h0]
    · simp [rowFetched, wfNonEmptyB, h0, hjl]
    · rw [h0]
      rcases hj : r.habits_json with _ | s
      · simp [wfNonEmptyB, hj] at h0
      · rcases hl : json_loads s with _ | v
        · simp [wfNonEmptyB, hj, hl] at h0
        · rcases v with w | xs
          · simp [wfNonEmptyB, hj, hl] at h0
          · simp only [wfNonEmptyB, hj, hl, Bool.and_eq_true] at h0
            have hs : s ≠ "[]" := by
              intro hcontra
              rw [hcontra, hjl] at hl
              have hxs : xs = [] := by
                simpa using hl
              rw [hxs] at h0
              simp at h0
            simp [rowFetched, hj, hs]
  rw [hfe]
  rfl

/-- C2: the streak algorithm on histories whose records are all
canonically encoded (absent, the serialized empty list, or a well-formed
non-empty list of habit names).  Writing L for the set of dates carrying
a well-formed non-empty record: a run of N consecutive logged days
ending today with a gap before it gives current_streak = N; if today is
not logged but yesterday heads a run of M+1 logged days with a gap
before it, current_streak = M + 1; if neither today nor yesterday is
logged, current_streak = 0 regardless of older history. -/
theorem c2_streak (t : List Row) (today : Int)
    (hcanon : ∀ r ∈ t, canonicalRow r) :
    ∃ st, calculate_stats t today = .ok st ∧
      (∀ N : Nat, 0 < N →
        (∀ i : Nat, i < N → today - (i : Int) ∈ specLogged t) →
        today - (N : Int) ∉ specLogged t → st.current_streak = N) ∧
      (∀ M : Nat, today ∉ specLogged t →
        (∀ i : Nat, i ≤ M → today - 1 - (i : Int) ∈ specLogged t) →
        today - 1 - ((M : Int) + 1) ∉ specLogged t →
        st.current_streak = M + 1) ∧
      (today ∉ specLogged t → today - 1 ∉ specLogged t →
        st.current_streak = 0) := by
  have hsafe : ∀ r ∈ t, rowFetched r = true → scanSafeB r = true :=
    fun r hr hf => canonical_safe (hcanon r hr) hf
  obtain ⟨st, hok⟩ := calculate_stats_isOk today hsafe
  have hL := loggedDates_fetch_eq_specLogged t hcanon
  have hstreak : st.current_streak = current_streak_calc (specLogged t) today := by
    rcases calculate_stats_shape hok with ⟨counts, tot, best, hs1, hs2, hst⟩
    rw [hst, ← hL]
  refine ⟨st, hok, ?_, ?_, ?_⟩
  · intro N hN hrun hgap
    have htoday : today ∈ specLogged t := by
      have := hrun 0 hN
      simpa using this
    rw [hstreak, current_streak_calc, if_pos htoday]
    have hcard : N ≤ (specLogged t).card := run_le_card _ today N hrun
    exact streak_walk_run _ N today _ (by omega) hrun hgap
  · intro M htoday hrun hgap
    have hyest : today - 1 ∈ specLogged t := by
      have := hrun 0 (Nat.zero_le M)
      simpa using this
    rw [hstreak, current_streak_calc, if_neg htoday, if_pos hyest]
    have hrun' : ∀ i : Nat, i < M + 1 → today - 1 - (i : Int) ∈ specLogged t :=
      fun i hi => hrun i (by omega)
    have hgap' : today - 1 - ((M + 1 : Nat) : Int) ∉ specLogged t := by
      push_cast
      exact hgap
    have hcard : M + 1 ≤ (specLogged t).card :=
      run_le_card _ (today - 1) (M + 1) hrun'
    exact streak_walk_run _ (M + 1) (today - 1) _ (by omega) hrun' hgap'
  · intro h1 h2
    rw [hstreak, current_streak_calc, if_neg h1, if_neg h2]

/-- C2 witness: a single well-formed record on day 5 with today = 5
gives a streak of exactly 1, via the run case with N = 1. -/
theorem c2_witness :
    ∃ st, calculate_stats [⟨5, some "[\"a\"]"⟩] 5 = .ok st ∧
      st.current_streak = 1 := by
  obtain ⟨st, hok, hA, hB, hC⟩ :=
    c2_streak [⟨5, some "[\"a\"]"⟩] 5
      (by intro r hr; fin_cases hr; exact Or.inr (Or.inr (by decide)))
  refine ⟨st, hok, ?_⟩
  apply hA 1 (by decide)
  · intro i hi
    have hz : i = 0 := by omega
    subst hz
    decide
  · decide

/-- C6 amended witness: the duplicated-name history evaluated through
the amended theorem. -/
theorem c6_witness :
    (⟨1, "A", 1, 2, "😊"⟩ : Stats).total_habits_completed =
      ((([⟨0, some "[\"a\",\"a\"]"⟩] : List Row).filter rowFetched).map
        lenContrib).sum := by
  exact c6_amended [⟨0, some "[\"a\",\"a\"]"⟩] 0 ⟨1, "A", 1, 2, "😊"⟩ (by decide)

/-! ## Tally and arg-max machinery for the best-habit claim -/

theorem countOf_bump (l : List (PyScalar × Nat)) (k j : PyScalar) :
    countOf (bump l k) j = countOf l j + if j = k then 1 else 0 := by
  induction l with
  | nil =>
    by_cases h : j = k
    · subst h
      simp [bump, countOf]
    · have hkj : ¬(k = j) := fun hh => h hh.symm
      simp [bump, countOf, h, hkj]
  | cons p rest ih =>
    rcases p with ⟨a, c⟩
    by_cases hak : a = k
    · subst hak
      by_cases haj : a = j
      · subst haj
        simp [bump, countOf]
      · have hja : ¬(a = j) := haj
        simp [bump, countOf, hja]
        have hjk : ¬(j = a) := fun hh => haj hh.symm
        simp [hjk]
    · by_cases haj : a = j
      · subst haj
        have hjk : ¬(a = k) := hak
        simp [bump, countOf, hak, hjk]
      · simp [bump, countOf, hak, haj, ih]

theorem countOf_foldl_bump :
    ∀ (seq : List PyScalar) (acc : List (PyScalar × Nat)) (k : PyScalar),
      countOf (seq.foldl bump acc) k = countOf acc k + seq.count k := by
  intro seq
  induction seq with
  | nil => simp
  | cons e rest ih =>
    intro acc k
    rw [List.foldl_cons, ih (bump acc e) k, countOf_bump, List.count_cons]
    by_cases h : e = k
    · subst h
      simp
      omega
    · have h2 : ¬(k = e) := fun hh => h hh.symm
      have hbe : ¬((e == k) = true) := by simpa using h
      simp [h2, hbe]

theorem mem_keysOf_bump_self (l : List (PyScalar × Nat)) (k : PyScalar) :
    k ∈ keysOf (bump l k) := by
  rw [keysOf_bump]
  by_cases h : k ∈ keysOf l
  · simp only [if_pos h]
    exact h
  · simp [h]

theorem mem_keysOf_bump_of_mem {l : List (PyScalar × Nat)} {j : PyScalar}
    (h : j ∈ keysOf l) (k : PyScalar) : j ∈ keysOf (bump l k) := by
  rw [keysOf_bump]
  by_cases hk : k ∈ keysOf l
  · simpa [hk]
  · simp [hk, List.mem_append, h]

theorem mem_keysOf_foldl_bump_iff
    (seq : List PyScalar) (acc : List (PyScalar × Nat)) (k : PyScalar) :
    k ∈ keysOf (seq.foldl bump acc) ↔ k ∈ keysOf acc ∨ k ∈ seq := by
  constructor
  · exact mem_keysOf_foldl_bump
  · induction seq generalizing acc with
    | nil =>
      intro h
      rcases h with h | h
      · exact h
      · simp at h
    | cons e rest ih =>
      intro h
      rw [List.foldl_cons]
      rcases h with h | h
      · exact ih (bump acc e) (Or.inl (mem_keysOf_bump_of_mem h e))
      · rcases List.mem_cons.mp h with rfl | h'
        · exact ih (bump acc k) (Or.inl (mem_keysOf_bump_self acc k))
        · exact ih (bump acc e) (Or.inr h')

theorem keysOf_foldl_bump_nodup :
    ∀ (seq : List PyScalar) (acc : List (PyScalar × Nat)),
      (keysOf acc).Nodup → (keysOf (seq.foldl bump acc)).Nodup := by
  intro seq
  induction seq with
  | nil => intro acc h; exact h
  | cons e rest ih =>
    intro acc h
    rw [List.foldl_cons]
    apply ih
    rw [keysOf_bump]
    by_cases he : e ∈ keysOf acc
    · simpa [he]
    · simp [he, List.nodup_append, h]

theorem countOf_of_mem :
    ∀ {l : List (PyScalar × Nat)} {p : PyScalar × Nat},
      p ∈ l → (keysOf l).Nodup → countOf l p.1 = p.2 := by
  intro l
  induction l with
  | nil => intro p h _; simp at h
  | cons q rest ih =>
    intro p hmem hnd
    have hnd' : q.1 ∉ keysOf rest ∧ (keysOf rest).Nodup := by
      have : keysOf (q :: rest) = q.1 :: keysOf rest := rfl
      rw [this, List.nodup_cons] at hnd
      exact hnd
    rcases List.mem_cons.mp hmem with rfl | hmem'
    · rcases p with ⟨a, c⟩
      simp [countOf]
    · have hne : q.1 ≠ p.1 := by
        intro hcontra
        exact hnd'.1 (hcontra ▸ List.mem_map_of_mem Prod.fst hmem')
      rcases q with ⟨a, c⟩
      simp only [countOf, if_neg hne]
      exact ih hmem' hnd'.2

theorem firstIdx_cons {α : Type} [DecidableEq α] (b : α) (l : List α) (a : α) :
    firstIdx (b :: l) a = if b = a then 0 else firstIdx l a + 1 := by
  simp only [firstIdx, List.findIdx_cons]
  by_cases h : b = a
  · simp [h]
  · simp [h]

theorem firstIdx_lt_length {α : Type} [DecidableEq α] {l : List α} {a : α}
    (h : a ∈ l) : firstIdx l a < l.length := by
  induction l with
  | nil => simp at h
  | cons b rest ih =>
    rw [firstIdx_cons]
    by_cases hb : b = a
    · simp [hb]
    · rcases List.mem_cons.mp h with rfl | h'
      · exact absurd rfl hb
      · simpa [hb] using ih h'

theorem firstIdx_append_left {α : Type} [DecidableEq α] {l l2 : List α} {a : α}
    (h : a ∈ l) : firstIdx (l ++ l2) a = firstIdx l a := by
  induction l with
  | nil => simp at h
  | cons b rest ih =>
    rw [List.cons_append, firstIdx_cons, firstIdx_cons]
    by_cases hb : b = a
    · simp [hb]
    · rcases List.mem_cons.mp h with rfl | h'
      · exact absurd rfl hb
      · simp [hb, ih h']

theorem firstIdx_append_right {α : Type} [DecidableEq α] {l l2 : List α} {a : α}
    (h : a ∉ l) : firstIdx (l ++ l2) a = l.length + firstIdx l2 a := by
  induction l with
  | nil => simp
  | cons b rest ih =>
    have hb : b ≠ a := fun hc => h (hc ▸ List.mem_cons_self b rest)
    have h' : a ∉ rest := fun hc => h (List.mem_cons_of_mem b hc)
    rw [List.cons_append, firstIdx_cons, if_neg hb, ih h', List.length_cons]
    omega

theorem tally_keys_pairwise (seq : List PyScalar) :
    (keysOf (seq.foldl bump [])).Pairwise
      (fun a b => firstIdx seq a ≤ firstIdx seq b) := by
  induction seq using List.reverseRecOn with
  | nil => simp [keysOf]
  | append_singleton l x ih =>
    rw [List.foldl_append, List.foldl_cons, List.foldl_nil]
    have hiffl : ∀ k, k ∈ keysOf (l.foldl bump []) ↔ k ∈ l := fun k => by
      simpa [keysOf] using mem_keysOf_foldl_bump_iff l [] k
    rw [keysOf_bump]
    by_cases hx : x ∈ keysOf (l.foldl bump [])
    · rw [if_pos hx]
      refine ih.imp_of_mem ?_
      intro a b ha hb hab
      rw [firstIdx_append_left ((hiffl a).mp ha),
        firstIdx_append_left ((hiffl b).mp hb)]
      exact hab
    · rw [if_neg hx]
      rw [List.pairwise_append]
      refine ⟨?_, List.pairwise_singleton _ _, ?_⟩
      · refine ih.imp_of_mem ?_
        intro a b ha hb hab
        rw [firstIdx_append_left ((hiffl a).mp ha),
          firstIdx_append_left ((hiffl b).mp hb)]
        exact hab
      · intro a ha y hy
        have hyx : y = x := by simpa using hy
        rw [hyx]
        have ha' : a ∈ l := (hiffl a).mp ha
        have hxl : x ∉ l := fun hm => hx ((hiffl x).mpr hm)
        rw [firstIdx_append_left ha', firstIdx_append_right hxl]
        have := firstIdx_lt_length ha'
        omega

theorem maxFrom_split :
    ∀ (l : List (PyScalar × Nat)) (p : PyScalar × Nat),
      ∃ l1 l2, p :: l = l1 ++ maxFrom p l :: l2 ∧
        (∀ q ∈ l1, q.2 < (maxFrom p l).2) ∧
        (∀ q ∈ l2, q.2 ≤ (maxFrom p l).2) := by
  intro l
  induction l with
  | nil =>
    intro p
    exact ⟨[], [], rfl, by simp, by simp⟩
  | cons q rest ih =>
    intro p
    simp only [maxFrom]
    by_cases hq : q.2 > p.2
    · rw [if_pos hq]
      obtain ⟨l1, l2, hsplit, hlt, hle⟩ := ih q
      refine ⟨p :: l1, l2, ?_, ?_, hle⟩
      · rw [show p :: q :: rest = p :: (q :: rest) from rfl, hsplit]
        rfl
      · intro y hy
        rcases List.mem_cons.mp hy with rfl | hy'
        · rcases l1 with _ | ⟨a, l1t⟩
          · simp only [List.nil_append, List.cons.injEq] at hsplit
            rw [← hsplit.1]
            omega
          · simp only [List.cons_append, List.cons.injEq] at hsplit
            have := hlt a (List.mem_cons_self a l1t)
            rw [← hsplit.1] at this
            omega
        · exact hlt y hy'
    · rw [if_neg hq]
      have hq' : q.2 ≤ p.2 := by omega
      obtain ⟨l1, l2, hsplit, hlt, hle⟩ := ih p
      rcases l1 with _ | ⟨a, l1t⟩
      · simp only [List.nil_append, List.cons.injEq] at hsplit
        refine ⟨[], q :: l2, ?_, by simp, ?_⟩
        · simp only [List.nil_append, ← hsplit.1, List.cons.injEq, true_and]
          rw [← hsplit.2]
        · intro y hy
          rcases List.mem_cons.mp hy with rfl | hy'
          · rw [← hsplit.1]
            exact hq'
          · exact hle y hy'
      · simp only [List.cons_append, List.cons.injEq] at hsplit
        have hpm : p.2 < (maxFrom p rest).2 := by
          have := hlt a (List.mem_cons_self a l1t)
          rw [← hsplit.1] at this
          exact this
        refine ⟨p :: q :: l1t, l2, ?_, ?_, hle⟩
        · rw [show (p :: q :: l1t) ++ maxFrom p rest :: l2 =
            p :: q :: (l1t ++ maxFrom p rest :: l2) from rfl, ← hsplit.2]
        · intro y hy
          rcases List.mem_cons.mp hy with rfl | hy'
          · exact hpm
          · rcases List.mem_cons.mp hy' with rfl | hy2
            · omega
            · exact hlt y (List.mem_cons_of_mem a hy2)

/-- C5 counterexample: the claim says the returned name is the arg-max
name with its first character upper-cased; Python str.capitalize() also
lower-cases the remaining characters, so the habit "a B" comes back as
"A b", not "A B". -/
theorem c5_counterexample :
    calculate_stats [⟨0, some "[\"a B\"]"⟩] 0 = .ok ⟨1, "A b", 1, 1, "😊"⟩ ∧
    "A b" ≠ "A B" := by decide

/-- C5 amended: over the scan sequence of habit items (fetched rows in
descending date order, each contributing its decoded list), best_habit
is the sentinel "None yet" when no habit was ever completed, and
otherwise the arg-max habit name by cumulative count with ties broken in
favor of the name first encountered during the scan, returned through
str.capitalize() — first character upper-cased AND the remaining
characters lower-cased.  The capitalization is applied only to the final
winner, never to the keys being counted. -/
theorem c5_amended (t : List Row) (today : Int)
    (hsafe : ∀ r ∈ t, rowFetched r = true → scanSafeB r = true)
    (st : Stats) (h : calculate_stats t today = .ok st) :
    (habitSeq t = [] → st.best_habit = "None yet") ∧
    (habitSeq t ≠ [] → ∃ n : String,
      PyScalar.sstr n ∈ habitSeq t ∧
      (∀ v ∈ habitSeq t,
        (habitSeq t).count v ≤ (habitSeq t).count (PyScalar.sstr n)) ∧
      (∀ v ∈ habitSeq t,
        (habitSeq t).count v = (habitSeq t).count (PyScalar.sstr n) →
        firstIdx (habitSeq t) (PyScalar.sstr n) ≤ firstIdx (habitSeq t) v) ∧
      st.best_habit = py_capitalize n) := by
  rcases calculate_stats_shape h with ⟨counts, tot, best, hscan, hbest, hst⟩
  have hcounts : counts = (habitSeq t).foldl bump [] :=
    (scan_rows_ok_char _ _ _ _ _ hscan).1
  constructor
  · intro hempty
    rw [hempty] at hcounts
    simp only [List.foldl_nil] at hcounts
    rw [hcounts] at hbest
    simp only [best_habit_calc, Except.ok.injEq] at hbest
    rw [hst]
    show best = "None yet"
    rw [← hbest]
    decide
  · intro hne
    have hkeymem : ∀ k, k ∈ keysOf counts ↔ k ∈ habitSeq t := by
      intro k
      rw [hcounts]
      simpa [keysOf] using mem_keysOf_foldl_bump_iff (habitSeq t) [] k
    have hcne : counts ≠ [] := by
      rcases hseq0 : habitSeq t with _ | ⟨e, seqrest⟩
      · exact absurd hseq0 hne
      · intro hc0
        have hmem : e ∈ keysOf counts :=
          (hkeymem e).mpr (by rw [hseq0]; exact List.mem_cons_self _ _)
        rw [hc0] at hmem
        simp [keysOf] at hmem
    rcases hc : counts with _ | ⟨c0, crest⟩
    · exact absurd hc hcne
    have hkeystr : ∀ k ∈ keysOf counts, isStrScalar k = true := by
      intro k hk
      have hsafe' : ∀ r ∈ fetch t, scanSafeB r = true := fun r hr =>
        hsafe r (mem_fetch.mp hr).1 (mem_fetch.mp hr).2
      exact rowsSeq_strings hsafe' k ((hkeymem k).mp hk)
    have hmmem : maxFrom c0 crest ∈ counts := by
      rw [hc]
      exact maxFrom_mem c0 crest
    have hmkey : (maxFrom c0 crest).1 ∈ keysOf counts :=
      List.mem_map_of_mem Prod.fst hmmem
    obtain ⟨n, hn⟩ : ∃ n, (maxFrom c0 crest).1 = PyScalar.sstr n := by
      have hstr := hkeystr _ hmkey
      rcases hk : (maxFrom c0 crest).1 with _ | b | z | s
      all_goals rw [hk] at hstr
      all_goals simp [isStrScalar] at hstr
      exact ⟨s, rfl⟩
    have hbestval : best = py_capitalize n := by
      rw [hc] at hbest
      simp only [best_habit_calc, hn, Except.ok.injEq] at hbest
      exact hbest.symm
    have hnodup : (keysOf counts).Nodup := by
      rw [hcounts]
      exact keysOf_foldl_bump_nodup _ [] (by simp [keysOf])
    have hcnt : ∀ p ∈ counts, p.2 = (habitSeq t).count p.1 := by
      intro p hp
      have h1 : countOf counts p.1 = p.2 := countOf_of_mem hp hnodup
      have h2 : countOf counts p.1 = (habitSeq t).count p.1 := by
        rw [hcounts, countOf_foldl_bump]
        simp [countOf]
      rw [← h1, h2]
    obtain ⟨l1, l2, hsplitc, hlt, hle⟩ := maxFrom_split crest c0
    have hcsplit : counts = l1 ++ maxFrom c0 crest :: l2 := by
      rw [hc, hsplitc]
    have hm2 : (maxFrom c0 crest).2 = (habitSeq t).count (PyScalar.sstr n) := by
      rw [← hn]
      exact hcnt _ hmmem
    refine ⟨n, ?_, ?_, ?_, ?_⟩
    · rw [← hn]
      exact (hkeymem _).mp hmkey
    · intro v hv
      obtain ⟨p, hp, hpv⟩ := List.mem_map.mp ((hkeymem v).mpr hv)
      have hpcount : p.2 = (habitSeq t).count v := by
        rw [← hpv]
        exact hcnt p hp
      have hple : p.2 ≤ (maxFrom c0 crest).2 := by
        rw [hcsplit] at hp
        rcases List.mem_append.mp hp with h1 | h1
        · exact le_of_lt (hlt p h1)
        · rcases List.mem_cons.mp h1 with rfl | h1'
          · exact le_refl _
          · exact hle p h1'
      rw [← hpcount, ← hm2]
      exact hple
    · intro v hv hcnteq
      obtain ⟨p, hp, hpv⟩ := List.mem_map.mp ((hkeymem v).mpr hv)
      have hpcount : p.2 = (habitSeq t).count v := by
        rw [← hpv]
        exact hcnt p hp
      have hpm : p.2 = (maxFrom c0 crest).2 := by
        rw [hpcount, hcnteq, hm2]
      rw [hcsplit] at hp
      rcases List.mem_append.mp hp with h1 | h1
      · have := hlt p h1
        omega
      · rcases List.mem_cons.mp h1 with rfl | h1'
        · have hvn : v = PyScalar.sstr n := by
            rw [← hpv, hn]
          rw [hvn]
        · have hkeyeq : keysOf counts =
              keysOf l1 ++ (maxFrom c0 crest).1 :: keysOf l2 := by
            rw [hcsplit]
            simp [keysOf]
          have hpair : (keysOf counts).Pairwise
              (fun a b => firstIdx (habitSeq t) a ≤ firstIdx (habitSeq t) b) := by
            rw [hcounts]
            exact tally_keys_pairwise (habitSeq t)
          rw [hkeyeq] at hpair
          have hp2 := (List.pairwise_append.mp hpair).2.1
          have hrel := (List.pairwise_cons.mp hp2).1 p.1
            (List.mem_map_of_mem Prod.fst h1')
          rw [hn, hpv] at hrel
          exact hrel
    · rw [hst]
      exact hbestval

/-- C5 amended witness: a one-record history; the conclusion holds with
the winner "a" capitalized to "A". -/
theorem c5_witness :
    (habitSeq [⟨0, some "[\"a\"]"⟩] = [] →
      (⟨1, "A", 1, 1, "😊"⟩ : Stats).best_habit = "None yet") ∧
    (habitSeq [⟨0, some "[\"a\"]"⟩] ≠ [] → ∃ n : String,
      PyScalar.sstr n ∈ habitSeq [⟨0, some "[\"a\"]"⟩] ∧
      (∀ v ∈ habitSeq [⟨0, some "[\"a\"]"⟩],
        (habitSeq [⟨0, some "[\"a\"]"⟩]).count v ≤
          (habitSeq [⟨0, some "[\"a\"]"⟩]).count (PyScalar.sstr n)) ∧
      (∀ v ∈ habitSeq [⟨0, some "[\"a\"]"⟩],
        (habitSeq [⟨0, some "[\"a\"]"⟩]).count v =
          (habitSeq [⟨0, some "[\"a\"]"⟩]).count (PyScalar.sstr n) →
        firstIdx (habitSeq [⟨0, some "[\"a\"]"⟩]) (PyScalar.sstr n) ≤
          firstIdx (habitSeq [⟨0, some "[\"a\"]"⟩]) v) ∧
      (⟨1, "A", 1, 1, "😊"⟩ : Stats).best_habit = py_capitalize n) := by
  exact c5_amended [⟨0, some "[\"a\"]"⟩] 0
    (by intro r hr; fin_cases hr; decide) ⟨1, "A", 1, 1, "😊"⟩ (by decide)

end MindTrack
